import Mathlib

/-!
Verification development for the `pelican-references` citation resolution
engine (`pelican/plugins/references/references.py`,
`pelican/plugins/references/labels/number_brackets.py`,
`pelican/plugins/references/settings.py`).

Document text is modelled as `List Char` (Python `str`); machine file
systems, the external `pandoc` conversion subprocess, the `pybtex`
formatting library and the HTML renderer are modelled as explicit function
parameters (they are external collaborators, not code of this repository).
All functions below are direct translations of the Python source.
-/

/-- Python `str` is modelled as a list of characters. -/
abbrev Str := List Char

/-- ASCII fragment of the `\w` / `[\w\d]` regex character class used by
`REGEX_CITATION` (word characters: letters, digits, underscore). -/
def isWordChar (c : Char) : Bool :=
  c.isAlphanum || c == '_'

/-- Characters removed by Python `str.strip()` / `str.lstrip()` with no
argument (ASCII whitespace). -/
def isPySpace (c : Char) : Bool :=
  c == ' ' || c == '\t' || c == '\n' || c == '\r' || c == '\x0B' || c == '\x0C'

/-- Python `str.lstrip()` (no argument): drop leading whitespace. -/
def pyLstrip (l : Str) : Str :=
  l.dropWhile isPySpace

/-- Python `str.rstrip()` (no argument): drop trailing whitespace. -/
def pyRstrip : Str → Str
  | [] => []
  | a :: l =>
    match pyRstrip l with
    | [] => if isPySpace a then [] else [a]
    | b :: m => a :: b :: m

/-- Python `str.strip()` (no argument): drop whitespace on both ends. -/
def pyStrip (l : Str) : Str :=
  pyRstrip (pyLstrip l)

/-- Python `str.lstrip(c)` for a single-character argument: drop every
leading occurrence of `c`. -/
def dropLeading (c : Char) (l : Str) : Str :=
  l.dropWhile (· == c)

/-- Python `str.rstrip(c)` for a single-character argument: drop every
trailing occurrence of `c`. -/
def dropTrailing (c : Char) : Str → Str
  | [] => []
  | a :: l =>
    match dropTrailing c l with
    | [] => if a == c then [] else [a]
    | b :: m => a :: b :: m

/-- Python `str.lower()`. -/
def toLowerStr (l : Str) : Str :=
  l.map Char.toLower

/-- Python `"s".split(",")`: split on every comma; always returns at least
one (possibly empty) piece. -/
def splitComma : Str → List Str
  | [] => [[]]
  | c :: rest =>
    if c = ',' then [] :: splitComma rest
    else
      match splitComma rest with
      | [] => [[c]]
      | p :: ps => (c :: p) :: ps

/-- `pathlib.Path(p).name`: the final path component. -/
def basename (p : Str) : Str :=
  (p.reverse.takeWhile (· ≠ '/')).reverse

/-- `pathlib.Path(p).suffix`: the extension of the final component,
including the leading dot; empty when the name has no dot, starts with its
only dot, or ends in a dot. -/
def pathSuffix (p : Str) : Str :=
  let base := basename p
  let ext := base.reverse.takeWhile (· ≠ '.')
  if 0 < ext.length ∧ ext.length + 1 < base.length then '.' :: ext.reverse else []

/-- `pathlib.Path(p).parent` (enough of it for relative source paths). -/
def dirname (p : Str) : Str :=
  if '/' ∈ p then ((p.reverse.dropWhile (· ≠ '/')).drop 1).reverse
  else ['.']

/-- `pathlib`'s `parent / rel` join. -/
def joinPath (a b : Str) : Str :=
  if a = ['.'] then b else a ++ '/' :: b

/-- A pelican `Article`/`Page` as the engine sees it: its `source_path`,
the optional `"bibliography"` metadata entry (the only metadata key the
plugin reads), and its mutable `_content` text. -/
structure Document where
  sourcePath : Str
  bibliography : Option Str
  content : Str
deriving DecidableEq

/-- `Citation` (references.py line 92): a matched marker span and the
citekeys it lists.  The Python field `end` is named `stop` here because
`end` is a Lean keyword. -/
structure Citation where
  start : Nat
  stop : Nat
  citekeys : List Str
deriving DecidableEq

/-- A formatted `pybtex` bibliography entry as consumed by the label
styles: its citekey and its rendered label (e.g. `"[1]"`). -/
structure Entry where
  key : Str
  label : Str
deriving DecidableEq

/-- One scanning step of `REGEX_CITATION.finditer` for the pattern
`\[@([\w\d]+)\]`: at each position try to match `[`, `@`, one or more word
characters, `]`; on success emit the span and the captured group and
continue after the match, otherwise advance one character.  `fuel` bounds
the recursion; `text.length` steps always suffice. -/
def scanAux : Nat → List Char → Nat → List (Nat × Nat × Str)
  | 0, _, _ => []
  | _ + 1, [], _ => []
  | fuel + 1, '[' :: rest1, pos =>
    match rest1 with
    | '@' :: rest2 =>
      let ks := rest2.takeWhile isWordChar
      if ks.length ≠ 0 ∧ (rest2.drop ks.length).head? = some ']' then
        (pos, pos + ks.length + 3, ks) ::
          scanAux fuel (rest2.drop (ks.length + 1)) (pos + ks.length + 3)
      else scanAux fuel rest1 (pos + 1)
    | _ => scanAux fuel rest1 (pos + 1)
  | fuel + 1, _ :: rest1, pos => scanAux fuel rest1 (pos + 1)

/-- `find_citations` (references.py lines 102-115): run the regex scan over
the document text and build a `Citation` per match, splitting the captured
group on commas and trimming each piece with `.strip().lstrip("@")`. -/
def find_citations (text : Str) : List Citation :=
  (scanAux text.length text 0).map fun m =>
    ⟨m.1, m.2.1, (splitComma m.2.2).map fun ck => dropLeading '@' (pyStrip ck)⟩

/-- The inner entry search of `inline_label` / `inline_label_fallback`: the
first index (and its label) whose `entry.key == citekey`. -/
def lookupEntry : List Entry → Str → Option (Nat × Str)
  | [], _ => none
  | e :: es, k =>
    if e.key = k then some (0, e.label)
    else (lookupEntry es k).map fun p => (p.1 + 1, p.2)

/-- `entry.label.lstrip("[").rstrip("]")` (number_brackets.py line 23). -/
def stripBrackets (l : Str) : Str :=
  dropTrailing ']' (dropLeading '[' l)

/-- The collection loop of `LabelStyle.inline_label` (number_brackets.py
lines 17-27): for each citekey in order, find its first matching entry and
record `(index, stripped label)`; a missing citekey raises
`KeyError(citekey)`, modelled as `Except.error citekey`. -/
def inlineLabelAux (entries : List Entry) : List Str → Except Str (List (Nat × Str))
  | [] => .ok []
  | k :: ks =>
    match lookupEntry entries k with
    | none => .error k
    | some (i, lab) =>
      (inlineLabelAux entries ks).map fun ps => (i, stripBrackets lab) :: ps

/-- The f-string `<a href="#reference{index+1}">{label}</a>`. -/
def mkLink (i : Nat) (lab : Str) : Str :=
  ("<a href=\"#reference".toList) ++ (Nat.repr (i + 1)).toList
    ++ ("\">".toList) ++ lab ++ ("</a>".toList)

/-- `LabelStyle.inline_label` (number_brackets.py lines 12-32): one link
per citekey, joined by `", "` and wrapped in `<sup>[` … `]</sup>`. -/
def inline_label (citekeys : List Str) (entries : List Entry) : Except Str Str :=
  (inlineLabelAux entries citekeys).map fun ps =>
    ("<sup>[".toList) ++ List.intercalate (", ".toList) (ps.map fun p => mkLink p.1 p.2)
      ++ ("]</sup>".toList)

/-- The collection loop of `inline_label_fallback` (references.py lines
118-137): like `inlineLabelAux` but the label is used unstripped. -/
def inlineFallbackAux (entries : List Entry) : List Str → Except Str (List (Nat × Str))
  | [] => .ok []
  | k :: ks =>
    match lookupEntry entries k with
    | none => .error k
    | some (i, lab) =>
      (inlineFallbackAux entries ks).map fun ps => (i, lab) :: ps

/-- `inline_label_fallback` (references.py lines 118-137): used when the
resolved label plugin has no `inline_label` attribute; wraps the links in
`<sup>` … `</sup>` with no extra bracket pair. -/
def inline_label_fallback (citekeys : List Str) (entries : List Entry) : Except Str Str :=
  (inlineFallbackAux entries citekeys).map fun ps =>
    ("<sup>".toList) ++ List.intercalate (", ".toList) (ps.map fun p => mkLink p.1 p.2)
      ++ ("</sup>".toList)

/-- The in-place splice
`content[: citation.start] + label + content[citation.end :]`
(references.py lines 152-156). -/
def splice (t : Str) (s e : Nat) (lab : Str) : Str :=
  t.take s ++ lab ++ t.drop e

/-- The loop of `replace_citations` (references.py lines 147-156) over an
already-reversed citation list, with a chosen labeler: on a labeling
error the exception escapes carrying the text as mutated so far. -/
def replaceAuxWith (labeler : List Str → List Entry → Except Str Str)
    (entries : List Entry) : Str → List Citation → Except (Str × Str) Str
  | t, [] => .ok t
  | t, c :: rest =>
    match labeler c.citekeys entries with
    | .error k => .error (k, t)
    | .ok lab => replaceAuxWith labeler entries (splice t c.start c.stop lab) rest

/-- `replace_citations` (references.py lines 140-156): resolve the label
plugin by name (`"number_brackets"` is the registered plugin with an
`inline_label`; any other resolvable pybtex label style lacks that
attribute, so the `AttributeError` handler falls back to
`inline_label_fallback`), then splice the citations in reversed order. -/
def replace_citations (t : Str) (citations : List Citation) (entries : List Entry)
    (label_style : Str) : Except (Str × Str) Str :=
  replaceAuxWith
    (if label_style = ("number_brackets".toList) then inline_label else inline_label_fallback)
    entries t citations.reverse

/-- `read_bibliography` (references.py lines 25-52).  `fs` models the file
system (path to content); `convert` models the
`pandoc --from=csljson --to=bibtex` subprocess.  The suffix test is the
source's `path.suffix.lower().lstrip().strip() == "json"`, and the
converted output is `.decode().strip()`-ped. -/
def read_bibliography (convert : Str → Str) (fs : Str → Option Str) (doc : Document) : Str :=
  match doc.bibliography with
  | none => []
  | some rel =>
    let path := joinPath (dirname doc.sourcePath) rel
    match fs path with
    | none => []
    | some bibcontent =>
      if pyStrip (pyLstrip (toLowerStr (pathSuffix path))) = ("json".toList) then
        pyStrip (convert bibcontent)
      else bibcontent

/-- The argument record of one `pybtex` formatting call issued by
`format_bibliography` (references.py lines 55-75). -/
structure BibRequest where
  bibliography : Str
  citations : List Str
  bibliography_style : Str
  label_style : Str
  name_style : Str
  sorting_style : Str
deriving DecidableEq

/-- `format_bibliography` (references.py lines 55-75): build the `pybtex`
request from its arguments and hand it to the external library (`pybtex`),
returning the formatted entries together with the issued request. -/
def format_bibliography (pybtex : BibRequest → List Entry) (bibliography : Str)
    (citations : List Str) (bibliography_style label_style name_style sorting_style : Str) :
    List Entry × BibRequest :=
  let req : BibRequest :=
    ⟨bibliography, citations, bibliography_style, label_style, name_style, sorting_style⟩
  (pybtex req, req)

/-- The citekey deduplication loop body of `process_content`
(references.py lines 172-176): append a key unless already collected. -/
def insertKey (acc : List Str) (k : Str) : List Str :=
  if k ∈ acc then acc else acc ++ [k]

/-- The citekey collection of `process_content` (references.py lines
172-176): iterate citations in scan order and each citation's citekeys in
listed order, keeping every key once, in first-appearance order. -/
def collect_citekeys (citations : List Citation) : List Str :=
  citations.foldl (fun acc c => c.citekeys.foldl insertKey acc) []

/-- `LabelStyle.format_labels` (number_brackets.py lines 8-10): the entry
at position `n` (0-based) receives label `"[n+1]"`, independent of its
contents. -/
def format_labels (sorted_entries : List Entry) : List Str :=
  (List.range sorted_entries.length).map fun n =>
    '[' :: (Nat.repr (n + 1)).toList ++ [']']

/-- The strategy names one `process_content` run hands to its
collaborators: the four arguments of the `format_bibliography` call and
the `label_style` given to `replace_citations`. -/
structure StylesUsed where
  bibliography_style : Str
  label_style : Str
  name_style : Str
  sorting_style : Str
  replace_label_style : Str
deriving DecidableEq

/-- `process_content` (references.py lines 159-183).  `renderBib` models
`render_bibliography` (pybtex HTML backend plus BeautifulSoup anchor
insertion, both external libraries).  The style-name arguments recorded in
`StylesUsed` are the literal defaults of the Python signatures, because
`process_content` calls `format_bibliography(bibliography, citekeys)` and
`replace_citations(content, citations, formatted_bib)` with no style
argument.  A `KeyError` escaping `replace_citations` escapes
`process_content` with the document's content as mutated so far and the
final bibliography never appended. -/
def process_content (pybtex : BibRequest → List Entry) (renderBib : List Entry → Str)
    (convert : Str → Str) (fs : Str → Option Str) (doc : Document) :
    Except (Str × Document) Document × Option StylesUsed :=
  match doc.bibliography with
  | none => (.ok doc, none)
  | some _ =>
    let bibliography := read_bibliography convert fs doc
    if bibliography = [] then (.ok doc, none)
    else
      let citations := find_citations doc.content
      if citations = [] then (.ok doc, none)
      else
        let citekeys := collect_citekeys citations
        let fb := format_bibliography pybtex bibliography citekeys
          ("unsrt".toList) ("number_brackets".toList) ("plain".toList) ("none".toList)
        let rendered := renderBib fb.1
        let styles : StylesUsed :=
          ⟨fb.2.bibliography_style, fb.2.label_style, fb.2.name_style, fb.2.sorting_style,
            "number_brackets".toList⟩
        match replace_citations doc.content citations fb.1 ("number_brackets".toList) with
        | .error ek => (.error (ek.1, { doc with content := ek.2 }), some styles)
        | .ok newContent => (.ok { doc with content := newContent ++ rendered }, some styles)

/-- `ReferencesProcessor.process` (references.py lines 195-217) over the
flattened document list of all generators: process each document in order;
an exception escaping `process_content` aborts the loop, leaving the
erroring document as mutated so far and every later document untouched. -/
def process_documents (pybtex : BibRequest → List Entry) (renderBib : List Entry → Str)
    (convert : Str → Str) (fs : Str → Option Str) :
    List Document → List Document × Option Str
  | [] => ([], none)
  | d :: ds =>
    match (process_content pybtex renderBib convert fs d).1 with
    | .ok d2 =>
      let r := process_documents pybtex renderBib convert fs ds
      (d2 :: r.1, r.2)
    | .error ek => (ek.2 :: ds, some ek.1)

/-- The `REFERENCES` settings dictionary (settings.py lines 15-21): two
optional string entries. -/
structure SettingsDict where
  citestyle : Option Str
  bibstyle : Option Str

/-- `PelicanReferencesSettings` (settings.py lines 6-23). -/
structure PelicanReferencesSettings where
  citestyle : Str
  bibstyle : Str
deriving DecidableEq

/-- `PelicanReferencesSettings.from_settings` (settings.py lines 11-23):
defaults `citestyle="numeric"`, `bibstyle="default"`, overridden by the
`REFERENCES` dictionary entries when present. -/
def from_settings (references : Option SettingsDict) : PelicanReferencesSettings :=
  match references with
  | none => ⟨"numeric".toList, "default".toList⟩
  | some s => ⟨s.citestyle.getD ("numeric".toList), s.bibstyle.getD ("default".toList)⟩

/-! Concrete fixtures shared by several theorems below: a one-entry
formatted bibliography containing the key `good`, a file system serving
`posts/refs.bib`, a conversion service whose output is recognizable, and
two documents. -/

/-- A formatted bibliography with the single key `good`, labelled `[1]`. -/
def entriesGood : List Entry := [⟨"good".toList, "[1]".toList⟩]

/-- A file system serving exactly `posts/refs.bib`. -/
def fsBib : Str → Option Str :=
  fun p => if p = ("posts/refs.bib".toList) then some ("@article".toList) else none

/-- A conversion service whose output is recognizably different from every
input it is given here. -/
def convertTagged : Str → Str := fun _ => "CONVERTED".toList

/-- A pybtex stub returning the `good` bibliography for any request. -/
def pybtexGood : BibRequest → List Entry := fun _ => entriesGood

/-- A bibliography renderer stub. -/
def renderR : List Entry → Str := fun _ => "R".toList

/-- A document citing the resolvable key `good`. -/
def docGood : Document :=
  ⟨"posts/a.md".toList, some ("refs.bib".toList), "[@good]".toList⟩

/-- A document citing the unresolvable key `ghost`. -/
def docGhost : Document :=
  ⟨"posts/a.md".toList, some ("refs.bib".toList), "[@ghost]".toList⟩

/-- C2: `find_citations` does not match the multi-key marker
`[@key1, @key2]` at all — the regex `\[@([\w\d]+)\]` admits neither commas
nor whitespace between the brackets — even though it does match a
single-key marker `[@key1]`.  The comma-splitting in `find_citations` and
the multi-key support in `inline_label` only make sense for the
comma-separated syntax the spec describes, so the regex is the slip. -/
theorem find_citations_multikey_marker_unmatched :
    find_citations ("A [@key1, @key2] B".toList) = []
      ∧ find_citations ("[@key1]".toList) = [⟨0, 7, ["key1".toList]⟩] := by
  exact ⟨rfl, rfl⟩

/-- Dropping trailing whitespace commutes with a non-whitespace head. -/
theorem pyRstrip_cons (a : Char) (l : Str) (h : isPySpace a = false) :
    pyRstrip (a :: l) = a :: pyRstrip l := by
  cases hr : pyRstrip l with
  | nil => simp [pyRstrip, hr, h]
  | cons b m => simp [pyRstrip, hr]

/-- `Path.suffix` is empty or starts with the dot. -/
theorem pathSuffix_shape (p : Str) : pathSuffix p = [] ∨ ∃ r, pathSuffix p = '.' :: r := by
  unfold pathSuffix
  dsimp only
  split
  · right; exact ⟨_, rfl⟩
  · left; rfl

/-- The format test of `read_bibliography` can never succeed: `Path.suffix`
keeps its leading dot, `.lower().lstrip().strip()` removes only case and
whitespace, and a string that is empty or starts with `'.'` never equals
`"json"`. -/
theorem suffix_check_ne_json (p : Str) :
    pyStrip (pyLstrip (toLowerStr (pathSuffix p))) ≠ ("json".toList) := by
  rcases pathSuffix_shape p with h | ⟨r, h⟩ <;> rw [h]
  · decide
  · rw [show toLowerStr ('.' :: r) = '.' :: toLowerStr r from by
      simp [toLowerStr, show Char.toLower '.' = '.' from by decide]]
    rw [show pyLstrip ('.' :: toLowerStr r) = '.' :: toLowerStr r from by
      simp [pyLstrip, show isPySpace '.' = false from by decide]]
    unfold pyStrip
    rw [show pyLstrip ('.' :: toLowerStr r) = '.' :: toLowerStr r from by
      simp [pyLstrip, show isPySpace '.' = false from by decide]]
    rw [pyRstrip_cons '.' _ (by decide)]
    intro hc
    have hh : (some '.' : Option Char) = some 'j' := congrArg List.head? hc
    exact absurd hh (by decide)

/-- An existing bibliography file is read back verbatim. -/
theorem read_bibliography_of_exists (convert : Str → Str) (fs : Str → Option Str)
    (doc : Document) (rel content : Str)
    (h1 : doc.bibliography = some rel)
    (h2 : fs (joinPath (dirname doc.sourcePath) rel) = some content) :
    read_bibliography convert fs doc = content := by
  simp only [read_bibliography, h1, h2]
  rw [if_neg (suffix_check_ne_json _)]

/-- C3 (amended): no bibliography source is ever routed through the
conversion service — `read_bibliography` returns the file content
unchanged for every extension.  A `.bib` source is handed to the bibtex
parser directly (bibtex, not CSL-JSON, is the engine's native format, as
the code's own `pandoc --from=csljson --to=bibtex` arguments show), and a
`.json` source, which that pandoc call was meant to convert, is also
passed through raw because the extension test compares the suffix
`".json"` (dot included) with `"json"` and never matches. -/
theorem read_bibliography_passthrough (convert : Str → Str) (fs : Str → Option Str)
    (doc : Document) (rel content : Str)
    (h1 : doc.bibliography = some rel)
    (h2 : fs (joinPath (dirname doc.sourcePath) rel) = some content) :
    read_bibliography convert fs doc = content :=
  read_bibliography_of_exists convert fs doc rel content h1 h2

/-- C3 (witness): the amended theorem applied to the `.bib` fixture. -/
theorem read_bibliography_passthrough_witness :
    docGood.bibliography = some ("refs.bib".toList)
      ∧ fsBib (joinPath (dirname docGood.sourcePath) ("refs.bib".toList))
          = some ("@article".toList)
      ∧ read_bibliography convertTagged fsBib docGood = ("@article".toList) :=
  ⟨rfl, rfl, read_bibliography_passthrough _ _ _ _ _ rfl rfl⟩

/-- C3 (counterexample): a `.bib` source is not routed through the
conversion service — the content comes back raw where conversion would
have produced `"CONVERTED"` — and a `.json` source is not converted
either. -/
theorem read_bibliography_no_conversion_cex :
    read_bibliography convertTagged fsBib docGood = ("@article".toList)
      ∧ convertTagged ("@article".toList) ≠ ("@article".toList)
      ∧ read_bibliography convertTagged
          (fun p => if p = ("posts/refs.json".toList) then some ("JSONDATA".toList) else none)
          ⟨"posts/a.md".toList, some ("refs.json".toList), "x".toList⟩
        = ("JSONDATA".toList) :=
  ⟨rfl, by decide, rfl⟩

/-- C9: a document with no `bibliography` metadata entry, or whose
referenced bibliography path does not exist, is returned unchanged: no
error escapes, no marker is replaced, no bibliography is appended, no
formatting call is issued. -/
theorem process_content_absent_noop (pybtex : BibRequest → List Entry)
    (renderBib : List Entry → Str) (convert : Str → Str) (fs : Str → Option Str)
    (doc : Document)
    (h : doc.bibliography = none
      ∨ ∃ rel, doc.bibliography = some rel
          ∧ fs (joinPath (dirname doc.sourcePath) rel) = none) :
    process_content pybtex renderBib convert fs doc = (.ok doc, none) := by
  rcases h with h | ⟨rel, h1, h2⟩
  · simp [process_content, h]
  · have hrb : read_bibliography convert fs doc = [] := by
      simp [read_bibliography, h1, h2]
    simp [process_content, h1, hrb]

/-- C9 (witness): both absent-bibliography cases at concrete documents. -/
theorem process_content_absent_noop_witness :
    ((⟨"a.md".toList, none, "t".toList⟩ : Document).bibliography = none
        ∨ ∃ rel, (⟨"a.md".toList, none, "t".toList⟩ : Document).bibliography = some rel
            ∧ fsBib (joinPath (dirname ("a.md".toList)) rel) = none)
      ∧ process_content pybtexGood renderR convertTagged fsBib
          ⟨"a.md".toList, none, "t".toList⟩
        = (.ok ⟨"a.md".toList, none, "t".toList⟩, none)
      ∧ process_content pybtexGood renderR convertTagged (fun _ => none) docGood
        = (.ok docGood, none) :=
  ⟨Or.inl rfl,
    process_content_absent_noop _ _ _ _ _ (Or.inl rfl),
    process_content_absent_noop _ _ _ _ _
      (Or.inr ⟨"refs.bib".toList, rfl, rfl⟩)⟩

/-- A file system whose `posts/refs.bib` exists but is empty. -/
def fsEmpty : Str → Option Str :=
  fun p => if p = ("posts/refs.bib".toList) then some [] else none

/-- C10: a bibliography file that exists but reads back empty behaves
exactly like an absent one: `read_bibliography` returns the empty string
(the conversion branch cannot fire, so nothing can manufacture content),
`process_content` takes the same early return, and the document is
unchanged with no error. -/
theorem process_content_empty_noop (pybtex : BibRequest → List Entry)
    (renderBib : List Entry → Str) (convert : Str → Str) (fs : Str → Option Str)
    (doc : Document) (rel : Str)
    (h1 : doc.bibliography = some rel)
    (h2 : fs (joinPath (dirname doc.sourcePath) rel) = some []) :
    process_content pybtex renderBib convert fs doc = (.ok doc, none) := by
  have hrb : read_bibliography convert fs doc = [] := by
    have := read_bibliography_of_exists convert fs doc rel [] h1 h2
    exact this
  simp [process_content, h1, hrb]

/-- C10 (witness): the empty-file fixture. -/
theorem process_content_empty_noop_witness :
    docGood.bibliography = some ("refs.bib".toList)
      ∧ fsEmpty (joinPath (dirname docGood.sourcePath) ("refs.bib".toList)) = some []
      ∧ process_content pybtexGood renderR convertTagged fsEmpty docGood
        = (.ok docGood, none) :=
  ⟨rfl, rfl, process_content_empty_noop _ _ _ _ _ _ rfl rfl⟩

/-- C1 (counterexample): on the text `"[@ghost] x [@good]"` with a
bibliography containing only `good`, citation replacement raises the
citekey-not-found error for `ghost`, but the text at that point is NOT the
original: the later occurrence `[@good]` has already been spliced. -/
theorem replace_citations_partial_mutation_cex :
    replace_citations ("[@ghost] x [@good]".toList)
        (find_citations ("[@ghost] x [@good]".toList)) entriesGood ("number_brackets".toList)
      = .error ("ghost".toList,
          ("[@ghost] x <sup>[<a href=\"#reference1\">1</a>]</sup>".toList))
      ∧ ("[@ghost] x <sup>[<a href=\"#reference1\">1</a>]</sup>".toList)
        ≠ ("[@ghost] x [@good]".toList) :=
  ⟨rfl, by decide⟩

/-- C4 (counterexample): with `docGhost` (unresolvable citekey) followed by
`docGood` (resolvable), the run aborts at `docGhost`: the result list
still holds `docGood` in its original state, although processing `docGood`
alone would have changed it. -/
theorem process_documents_abort_cex :
    process_documents pybtexGood renderR convertTagged fsBib [docGhost, docGood]
      = ([docGhost, docGood], some ("ghost".toList))
      ∧ (process_content pybtexGood renderR convertTagged fsBib docGood).1
        = .ok { docGood with content := ("<sup>[<a href=\"#reference1\">1</a>]</sup>R".toList) }
      ∧ ({ docGood with content := ("<sup>[<a href=\"#reference1\">1</a>]</sup>R".toList) }
          : Document) ≠ docGood :=
  ⟨rfl, rfl, by decide⟩

/-- C5 (counterexample): a run whose configuration names even the default
styles (`citestyle="numeric"`, `bibstyle="default"`) still has
`process_content` hand its collaborators the fixed names
`"unsrt"`/`"number_brackets"` — the configured names are never used (and
`process_content` does not even receive the settings object). -/
theorem process_content_styles_cex :
    (process_content pybtexGood renderR convertTagged fsBib docGood).2
      = some ⟨"unsrt".toList, "number_brackets".toList, "plain".toList, "none".toList,
          "number_brackets".toList⟩
      ∧ (from_settings (some ⟨some ("numeric".toList), some ("default".toList)⟩)).citestyle
        ≠ ("number_brackets".toList)
      ∧ (from_settings (some ⟨some ("numeric".toList), some ("default".toList)⟩)).bibstyle
        ≠ ("unsrt".toList) :=
  ⟨rfl, by decide, by decide⟩

/-- The pure success path of the patching loop: splice each
(citation, label) pair front-to-back. -/
def spliceWith (t : Str) (ps : List (Citation × Str)) : Str :=
  ps.foldl (fun acc p => splice acc p.1.start p.1.stop p.2) t

/-- When every citation in the (already reversed) list resolves, the
patching loop succeeds and equals the pure splice fold. -/
theorem replaceAuxWith_ok (labeler : List Str → List Entry → Except Str Str)
    (entries : List Entry) (rs : List Citation) (ls : List Str)
    (h : List.Forall₂ (fun c l => labeler c.citekeys entries = .ok l) rs ls) :
    ∀ t, replaceAuxWith labeler entries t rs = .ok (spliceWith t (rs.zip ls)) := by
  induction h with
  | nil => intro t; rfl
  | @cons c l rs2 ls2 hk htail ih =>
    intro t
    simp only [replaceAuxWith, hk, List.zip_cons_cons, spliceWith, List.foldl_cons]
    exact ih _

/-- When every citation in the reversed prefix resolves and the next one
fails, the loop escapes with exactly the prefix splices applied. -/
theorem replaceAuxWith_error (labeler : List Str → List Entry → Except Str Str)
    (entries : List Entry) (rs : List Citation) (ls : List Str) (c : Citation)
    (k : Str) (more : List Citation)
    (hok : List.Forall₂ (fun c2 l => labeler c2.citekeys entries = .ok l) rs ls)
    (hc : labeler c.citekeys entries = .error k) :
    ∀ t, replaceAuxWith labeler entries t (rs ++ c :: more)
      = .error (k, spliceWith t (rs.zip ls)) := by
  induction hok with
  | nil =>
    intro t
    simp only [List.nil_append, replaceAuxWith, hc, List.zip_nil_left, spliceWith,
      List.foldl_nil]
  | @cons c2 l rs2 ls2 hk htail ih =>
    intro t
    simp only [List.cons_append, replaceAuxWith, hk, List.zip_cons_cons, spliceWith,
      List.foldl_cons]
    exact ih _

/-- C1 (amended): when a citekey of occurrence `c` has no bibliography
entry and every occurrence after `c` in document order resolves,
replacement raises the citekey-not-found error for the first unresolvable
key of `c`, and the text at that moment carries exactly the splices of the
occurrences after `c` (they were processed first, in reverse document
order); the erroring occurrence and everything before it are untouched,
and the text equals the original exactly when `c` is the last
occurrence. -/
theorem replace_citations_error_state (t : Str) (pre post : List Citation) (c : Citation)
    (entries : List Entry) (k : Str) (ls : List Str)
    (hpost : List.Forall₂ (fun c2 l => inline_label c2.citekeys entries = .ok l) post ls)
    (hc : inline_label c.citekeys entries = .error k) :
    replace_citations t (pre ++ c :: post) entries ("number_brackets".toList)
      = .error (k, spliceWith t (post.reverse.zip ls.reverse))
      ∧ (post = [] → spliceWith t (post.reverse.zip ls.reverse) = t) := by
  constructor
  · unfold replace_citations
    rw [if_pos rfl]
    have hrev : (pre ++ c :: post).reverse = post.reverse ++ c :: pre.reverse := by
      simp
    rw [hrev]
    exact replaceAuxWith_error inline_label entries post.reverse ls.reverse c k pre.reverse
      (List.rel_reverse hpost) hc t
  · intro hp
    subst hp
    cases hpost
    rfl

/-- C1 (witness): the amended theorem at the concrete two-citation text;
the error escapes with the later occurrence already spliced. -/
theorem replace_citations_error_state_witness :
    List.Forall₂ (fun (c2 : Citation) (l : Str) => inline_label c2.citekeys entriesGood = .ok l)
        [⟨11, 18, ["good".toList]⟩]
        [("<sup>[<a href=\"#reference1\">1</a>]</sup>".toList)]
      ∧ inline_label ["ghost".toList] entriesGood = .error ("ghost".toList)
      ∧ replace_citations ("[@ghost] x [@good]".toList)
          ([] ++ (⟨0, 8, ["ghost".toList]⟩ : Citation) :: [⟨11, 18, ["good".toList]⟩])
          entriesGood ("number_brackets".toList)
        = .error ("ghost".toList,
            spliceWith ("[@ghost] x [@good]".toList)
              (([⟨11, 18, ["good".toList]⟩] : List Citation).reverse.zip
                ([("<sup>[<a href=\"#reference1\">1</a>]</sup>".toList)] : List Str).reverse)) :=
  ⟨List.Forall₂.cons rfl List.Forall₂.nil, rfl,
    (replace_citations_error_state ("[@ghost] x [@good]".toList) [] [⟨11, 18, ["good".toList]⟩]
      ⟨0, 8, ["ghost".toList]⟩ entriesGood ("ghost".toList)
      [("<sup>[<a href=\"#reference1\">1</a>]</sup>".toList)]
      (List.Forall₂.cons rfl List.Forall₂.nil) rfl).1⟩

/-- In a descending (reverse-document-order) chain every later citation
ends no later than the head starts. -/
theorem chain_desc_stops (c : Citation) (rs : List Citation)
    (hch : List.Chain' (fun a b => b.stop ≤ a.start) (c :: rs))
    (hse : ∀ x ∈ c :: rs, x.start ≤ x.stop) :
    ∀ x ∈ rs, x.stop ≤ c.start := by
  induction rs generalizing c with
  | nil => intro x hx; cases hx
  | cons r rs ih =>
    intro x hx
    rw [List.chain'_cons] at hch
    rcases List.mem_cons.mp hx with rfl | hx
    · exact hch.1
    · have hr := ih r hch.2 (fun y hy => hse y (List.mem_cons_of_mem c hy)) x hx
      have h1 : r.start ≤ r.stop := hse r (by simp)
      exact le_trans hr (le_trans h1 hch.1)

/-- In an ascending (document-order) chain every later citation starts no
earlier than the head ends. -/
theorem chain_asc_starts (c : Citation) (rs : List Citation)
    (hch : List.Chain' (fun a b => a.stop ≤ b.start) (c :: rs))
    (hse : ∀ x ∈ c :: rs, x.start ≤ x.stop) :
    ∀ x ∈ rs, c.stop ≤ x.start := by
  induction rs generalizing c with
  | nil => intro x hx; cases hx
  | cons r rs ih =>
    intro x hx
    rw [List.chain'_cons] at hch
    rcases List.mem_cons.mp hx with rfl | hx
    · exact hch.1
    · have hr := ih r hch.2 (fun y hy => hse y (List.mem_cons_of_mem c hy)) x hx
      have h1 : r.start ≤ r.stop := hse r (by simp)
      exact le_trans hch.1 (le_trans h1 hr)

/-- Length bookkeeping for the splice fold over a reversed (descending,
non-overlapping, in-bounds) citation list. -/
theorem spliceWith_length (rs : List Citation) :
    ∀ (ls : List Str) (t : Str), rs.length = ls.length →
    List.Chain' (fun a b => b.stop ≤ a.start) rs →
    (∀ x ∈ rs, x.start ≤ x.stop) →
    (∀ x ∈ rs, x.stop ≤ t.length) →
    (spliceWith t (rs.zip ls)).length + (rs.map fun x => x.stop - x.start).sum
      = t.length + (ls.map List.length).sum := by
  induction rs with
  | nil =>
    intro ls t hlen _ _ _
    cases ls with
    | nil => simp [spliceWith]
    | cons l ls => simp at hlen
  | cons c rs ih =>
    intro ls t hlen hch hse hend
    cases ls with
    | nil => simp at hlen
    | cons l ls =>
      have h1 : c.start ≤ c.stop := hse c (by simp)
      have h2 : c.stop ≤ t.length := hend c (by simp)
      have hsplice : (splice t c.start c.stop l).length
          = c.start + l.length + (t.length - c.stop) := by
        simp [splice]
        omega
      have hstops := chain_desc_stops c rs hch hse
      have hend2 : ∀ x ∈ rs, x.stop ≤ (splice t c.start c.stop l).length := by
        intro x hx
        have := hstops x hx
        omega
      have ih2 := ih ls (splice t c.start c.stop l) (by simpa using hlen)
        (List.Chain'.tail hch) (fun x hx => hse x (List.mem_cons_of_mem c hx)) hend2
      simp only [List.zip_cons_cons, spliceWith, List.foldl_cons, List.map_cons,
        List.sum_cons] at ih2 ⊢
      omega

/-- The spans of an ascending, non-overlapping, in-bounds citation list
cannot sum to more than the available length past the lower bound `b`. -/
theorem spans_sum_le (rs : List Citation) :
    ∀ (L b : Nat), List.Chain' (fun a c => a.stop ≤ c.start) rs →
    (∀ x ∈ rs, b ≤ x.start ∧ x.start ≤ x.stop ∧ x.stop ≤ L) →
    (rs.map fun x => x.stop - x.start).sum ≤ L - b := by
  induction rs with
  | nil => intro L b _ _; simp
  | cons c rs ih =>
    intro L b hch h
    have hc := h c (by simp)
    have hnext := chain_asc_starts c rs hch (fun x hx => ((h x hx).2.1))
    have ih2 := ih L c.stop (List.Chain'.tail hch)
      (fun x hx => ⟨hnext x hx, (h x (List.mem_cons_of_mem c hx)).2⟩)
    simp only [List.map_cons, List.sum_cons]
    omega

/-- C7: for every text and every list of non-overlapping occurrences given
in increasing start order (with matching resolved labels), applying the
replacements in reverse document order succeeds and yields a text of
length `original_length - sum(marker_lengths) + sum(label_lengths)`,
whatever the number of occurrences. -/
theorem replace_citations_length_invariant (t : Str) (cs : List Citation)
    (entries : List Entry) (ls : List Str)
    (hres : List.Forall₂ (fun c l => inline_label c.citekeys entries = .ok l) cs ls)
    (hch : List.Chain' (fun a b => a.stop ≤ b.start) cs)
    (hse : ∀ c ∈ cs, c.start ≤ c.stop)
    (hend : ∀ c ∈ cs, c.stop ≤ t.length) :
    replace_citations t cs entries ("number_brackets".toList)
      = .ok (spliceWith t (cs.reverse.zip ls.reverse))
      ∧ (spliceWith t (cs.reverse.zip ls.reverse)).length
        = t.length - (cs.map fun c => c.stop - c.start).sum + (ls.map List.length).sum := by
  have hrev := List.rel_reverse hres
  constructor
  · unfold replace_citations
    rw [if_pos rfl]
    exact replaceAuxWith_ok inline_label entries cs.reverse ls.reverse hrev t
  · have hlen := hrev.length_eq
    have hchr : List.Chain' (fun a b => b.stop ≤ a.start) cs.reverse := by
      rw [List.chain'_reverse]
      exact hch
    have h1 := spliceWith_length cs.reverse ls.reverse t hlen hchr
      (fun x hx => hse x (List.mem_reverse.mp hx))
      (fun x hx => hend x (List.mem_reverse.mp hx))
    have h2 := spans_sum_le cs t.length 0 hch
      (fun x hx => ⟨Nat.zero_le _, hse x hx, hend x hx⟩)
    simp only [List.map_reverse, List.sum_reverse] at h1
    omega

/-- C7 (witness): the invariant at a concrete two-citation text. -/
theorem replace_citations_length_invariant_witness :
    List.Forall₂
        (fun (c : Citation) (l : Str) =>
          inline_label c.citekeys
              [⟨"x".toList, "[1]".toList⟩, ⟨"y".toList, "[2]".toList⟩] = .ok l)
        [⟨2, 6, ["x".toList]⟩, ⟨9, 13, ["y".toList]⟩]
        [("<sup>[<a href=\"#reference1\">1</a>]</sup>".toList),
          ("<sup>[<a href=\"#reference2\">2</a>]</sup>".toList)]
      ∧ List.Chain' (fun (a b : Citation) => a.stop ≤ b.start)
          [⟨2, 6, ["x".toList]⟩, ⟨9, 13, ["y".toList]⟩]
      ∧ (∀ c ∈ ([⟨2, 6, ["x".toList]⟩, ⟨9, 13, ["y".toList]⟩] : List Citation),
          c.start ≤ c.stop)
      ∧ (∀ c ∈ ([⟨2, 6, ["x".toList]⟩, ⟨9, 13, ["y".toList]⟩] : List Citation),
          c.stop ≤ ("a [@x] b [@y]".toList : Str).length)
      ∧ replace_citations ("a [@x] b [@y]".toList)
            [⟨2, 6, ["x".toList]⟩, ⟨9, 13, ["y".toList]⟩]
            [⟨"x".toList, "[1]".toList⟩, ⟨"y".toList, "[2]".toList⟩]
            ("number_brackets".toList)
          = .ok (spliceWith ("a [@x] b [@y]".toList)
              (([⟨2, 6, ["x".toList]⟩, ⟨9, 13, ["y".toList]⟩] : List Citation).reverse.zip
                ([("<sup>[<a href=\"#reference1\">1</a>]</sup>".toList),
                  ("<sup>[<a href=\"#reference2\">2</a>]</sup>".toList)] : List Str).reverse)) :=
  ⟨List.Forall₂.cons rfl (List.Forall₂.cons rfl List.Forall₂.nil),
    List.Chain'.cons (by decide) (List.chain'_singleton _), by decide, by decide,
    (replace_citations_length_invariant ("a [@x] b [@y]".toList)
      [⟨2, 6, ["x".toList]⟩, ⟨9, 13, ["y".toList]⟩]
      [⟨"x".toList, "[1]".toList⟩, ⟨"y".toList, "[2]".toList⟩]
      [("<sup>[<a href=\"#reference1\">1</a>]</sup>".toList),
        ("<sup>[<a href=\"#reference2\">2</a>]</sup>".toList)]
      (List.Forall₂.cons rfl (List.Forall₂.cons rfl List.Forall₂.nil))
      (List.Chain'.cons (by decide) (List.chain'_singleton _)) (by decide) (by decide)).1⟩

/-- A trailing occurrence of `c` is removed by `rstrip(c)`. -/
theorem dropTrailing_append_self (c : Char) (l : Str) :
    dropTrailing c (l ++ [c]) = dropTrailing c l := by
  induction l with
  | nil => simp [dropTrailing]
  | cons a l ih => simp only [List.cons_append, dropTrailing, List.append_eq, ih]

/-- `rstrip(c)` is the identity on a string with no `c` at all. -/
theorem dropTrailing_of_not_mem (c : Char) (l : Str) (h : ∀ x ∈ l, x ≠ c) :
    dropTrailing c l = l := by
  induction l with
  | nil => rfl
  | cons a l ih =>
    have ha : a ≠ c := h a (List.mem_cons_self a l)
    have ih2 := ih fun x hx => h x (List.mem_cons_of_mem a hx)
    simp only [dropTrailing, ih2]
    cases l with
    | nil => simp [ha]
    | cons b m => rfl

/-- `label.lstrip("[").rstrip("]")` on a once-bracketed label `[d]` whose
interior is bracket-free recovers the interior `d`. -/
theorem stripBrackets_wrapped (d : Str) (hd : ∀ x ∈ d, x ≠ '[' ∧ x ≠ ']') :
    stripBrackets ('[' :: d ++ [']']) = d := by
  unfold stripBrackets dropLeading
  rw [show List.dropWhile (· == '[') ('[' :: d ++ [']'])
      = List.dropWhile (· == '[') (d ++ [']']) from by simp [List.dropWhile]]
  cases d with
  | nil => rfl
  | cons a d2 =>
    have ha : (a == '[') = false := by
      simp only [beq_eq_false_iff_ne, ne_eq]
      exact (hd a (by simp)).1
    rw [show List.dropWhile (· == '[') ((a :: d2) ++ [']'])
        = (a :: d2) ++ [']'] from by simp [List.dropWhile, ha]]
    rw [dropTrailing_append_self]
    exact dropTrailing_of_not_mem ']' (a :: d2) fun x hx => (hd x hx).2

/-- The collection loop reproduces the given (index, interior) pairs when
every citekey resolves to a bracketed label. -/
theorem inlineLabelAux_resolves (entries : List Entry) (ks : List Str)
    (ps : List (Nat × Str))
    (h : List.Forall₂
      (fun (k : Str) (p : Nat × Str) =>
        lookupEntry entries k = some (p.1, '[' :: p.2 ++ [']'])
          ∧ ∀ x ∈ p.2, x ≠ '[' ∧ x ≠ ']')
      ks ps) :
    inlineLabelAux entries ks = .ok ps := by
  induction h with
  | nil => rfl
  | @cons k p ks2 ps2 hk htail ih =>
    simp only [inlineLabelAux, hk.1, ih, Except.map]
    rw [stripBrackets_wrapped p.2 hk.2]

/-- C8: when every citekey of an occurrence resolves (first matching entry
at position `pᵢ.1`, carrying the bracketed label `[pᵢ.2]`), the
numeric-bracket inline label is the superscript fragment wrapping, in a
single bracket pair, one comma-joined hyperlink per key in listed order,
each pointing at `#reference(pᵢ.1+1)` with the bracket-stripped number as
its text. -/
theorem inline_label_render (ks : List Str) (entries : List Entry)
    (ps : List (Nat × Str))
    (h : List.Forall₂
      (fun (k : Str) (p : Nat × Str) =>
        lookupEntry entries k = some (p.1, '[' :: p.2 ++ [']'])
          ∧ ∀ x ∈ p.2, x ≠ '[' ∧ x ≠ ']')
      ks ps) :
    inline_label ks entries
      = .ok (("<sup>[".toList)
          ++ List.intercalate (", ".toList) (ps.map fun p => mkLink p.1 p.2)
          ++ ("]</sup>".toList)) := by
  simp only [inline_label, inlineLabelAux_resolves entries ks ps h, Except.map]

/-- C8 (witness): the scenario occurrence citing `smith99` and `doe01`,
resolving at positions 0 and 1 with labels `[1]` and `[2]`. -/
theorem inline_label_render_witness :
    List.Forall₂
        (fun (k : Str) (p : Nat × Str) =>
          lookupEntry [⟨"smith99".toList, "[1]".toList⟩, ⟨"doe01".toList, "[2]".toList⟩] k
              = some (p.1, '[' :: p.2 ++ [']'])
            ∧ ∀ x ∈ p.2, x ≠ '[' ∧ x ≠ ']')
        ["smith99".toList, "doe01".toList] [(0, "1".toList), (1, "2".toList)]
      ∧ inline_label ["smith99".toList, "doe01".toList]
          [⟨"smith99".toList, "[1]".toList⟩, ⟨"doe01".toList, "[2]".toList⟩]
        = .ok (("<sup>[".toList)
            ++ List.intercalate (", ".toList)
              (([(0, "1".toList), (1, "2".toList)] : List (Nat × Str)).map
                fun p => mkLink p.1 p.2)
            ++ ("]</sup>".toList)) :=
  ⟨List.Forall₂.cons ⟨rfl, by decide⟩ (List.Forall₂.cons ⟨rfl, by decide⟩ List.Forall₂.nil),
    inline_label_render ["smith99".toList, "doe01".toList]
      [⟨"smith99".toList, "[1]".toList⟩, ⟨"doe01".toList, "[2]".toList⟩]
      [(0, "1".toList), (1, "2".toList)]
      (List.Forall₂.cons ⟨rfl, by decide⟩
        (List.Forall₂.cons ⟨rfl, by decide⟩ List.Forall₂.nil))⟩

/-- C4 (amended): a citekey-not-found error in one document aborts the
whole run's citation processing: the documents before it keep their
processed states, the erroring document is left as mutated so far, and
every document after it in the processing order is returned untouched —
not processed. -/
theorem process_documents_abort_run (pybtex : BibRequest → List Entry)
    (renderBib : List Entry → Str) (convert : Str → Str) (fs : Str → Option Str)
    (pre pre2 post : List Document) (bad badState : Document) (k : Str)
    (hpre : List.Forall₂
      (fun d d2 => (process_content pybtex renderBib convert fs d).1 = .ok d2) pre pre2)
    (hbad : (process_content pybtex renderBib convert fs bad).1 = .error (k, badState)) :
    process_documents pybtex renderBib convert fs (pre ++ bad :: post)
      = (pre2 ++ badState :: post, some k) := by
  induction hpre with
  | nil => simp [process_documents, hbad]
  | @cons d d2 pr pr2 hd htail ih =>
    simp only [List.cons_append, process_documents, hd, List.append_eq, ih]

/-- C4 (witness): the amended theorem at the two-document run; the second
document comes back untouched. -/
theorem process_documents_abort_run_witness :
    (process_content pybtexGood renderR convertTagged fsBib docGhost).1
        = .error ("ghost".toList, docGhost)
      ∧ process_documents pybtexGood renderR convertTagged fsBib ([] ++ docGhost :: [docGood])
        = ([] ++ docGhost :: [docGood], some ("ghost".toList)) :=
  ⟨rfl,
    process_documents_abort_run pybtexGood renderR convertTagged fsBib
      [] [] [docGood] docGhost docGhost ("ghost".toList) List.Forall₂.nil rfl⟩

/-- C5 (amended): whatever the run's configuration says, every
`process_content` call either performs no formatting at all or hands its
collaborators exactly the fixed built-in strategy names — `"unsrt"` for
the bibliography style and `"number_brackets"` for both the formatting
label style and the inline replacement style (with `"plain"`/`"none"`
companions); the configured `citestyle`/`bibstyle` are never consulted
(`process_content` does not even receive the settings object). -/
theorem process_content_styles_fixed (pybtex : BibRequest → List Entry)
    (renderBib : List Entry → Str) (convert : Str → Str) (fs : Str → Option Str)
    (doc : Document) :
    (process_content pybtex renderBib convert fs doc).2 = none
      ∨ (process_content pybtex renderBib convert fs doc).2
        = some ⟨"unsrt".toList, "number_brackets".toList, "plain".toList, "none".toList,
            "number_brackets".toList⟩ := by
  rcases hb : doc.bibliography with _ | rel
  · left
    simp [process_content, hb]
  · simp only [process_content, hb, format_bibliography]
    split
    · left; rfl
    · split
      · left; rfl
      · split
        · right; rfl
        · right; rfl


/-- The 0-based position of the first occurrence of `k` (the position a
citekey's `[n]` label refers to, with `n = firstIdx + 1`). -/
def firstIdx : List Str → Str → Nat
  | [], _ => 0
  | a :: l, k => if a = k then 0 else firstIdx l k + 1

/-- `firstIdx` at a matching head. -/
theorem firstIdx_cons_self (k : Str) (l : List Str) : firstIdx (k :: l) k = 0 := by
  simp [firstIdx]

/-- `firstIdx` skips a non-matching head. -/
theorem firstIdx_cons_ne (a k : Str) (l : List Str) (h : a ≠ k) :
    firstIdx (a :: l) k = firstIdx l k + 1 := by
  simp [firstIdx, h]

/-- `firstIdx` ignores a suffix when the key is in the prefix. -/
theorem firstIdx_append_left (l₁ l₂ : List Str) (k : Str) (h : k ∈ l₁) :
    firstIdx (l₁ ++ l₂) k = firstIdx l₁ k := by
  induction l₁ with
  | nil => cases h
  | cons a l ih =>
    by_cases ha : a = k
    · simp [firstIdx, ha]
    · rcases List.mem_cons.mp h with h2 | h2
      · exact absurd h2.symm ha
      · simp [firstIdx, ha, ih h2]

/-- `firstIdx` passes over a prefix not containing the key. -/
theorem firstIdx_append_right (l₁ l₂ : List Str) (k : Str) (h : k ∉ l₁) :
    firstIdx (l₁ ++ l₂) k = l₁.length + firstIdx l₂ k := by
  induction l₁ with
  | nil => simp
  | cons a l ih =>
    have ha : a ≠ k := fun hc => h (hc ▸ List.mem_cons_self a l)
    have h2 : k ∉ l := fun hc => h (List.mem_cons_of_mem a hc)
    rw [List.cons_append, firstIdx_cons_ne a k (l ++ l₂) ha, ih h2, List.length_cons]
    omega

/-- Inserting an element makes the card one more than erasing it has. -/
theorem card_insert_erase (s : Finset Str) (x : Str) :
    (insert x s).card = (s.erase x).card + 1 := by
  by_cases h : x ∈ s
  · rw [Finset.insert_eq_self.mpr h]
    exact (Finset.card_erase_add_one h).symm
  · rw [Finset.erase_eq_of_not_mem h, Finset.card_insert_of_not_mem h]

/-- The nested citekey loop of `process_content` equals one fold over the
flattened key sequence. -/
theorem collect_foldl_eq (cs : List Citation) :
    ∀ acc, cs.foldl (fun acc c => c.citekeys.foldl insertKey acc) acc
      = (cs.flatMap Citation.citekeys).foldl insertKey acc := by
  induction cs with
  | nil => intro acc; rfl
  | cons c cs ih =>
    intro acc
    rw [List.foldl_cons, List.flatMap_cons, List.foldl_append]
    exact ih _

/-- `collect_citekeys` as a fold over the flattened key sequence. -/
theorem collect_citekeys_eq (cs : List Citation) :
    collect_citekeys cs = (cs.flatMap Citation.citekeys).foldl insertKey [] :=
  collect_foldl_eq cs []

/-- One insertion step preserves distinctness. -/
theorem insertKey_nodup (acc : List Str) (x : Str) (h : acc.Nodup) :
    (insertKey acc x).Nodup := by
  by_cases hx : x ∈ acc
  · rw [insertKey, if_pos hx]; exact h
  · rw [insertKey, if_neg hx]
    exact List.Nodup.append h (List.nodup_singleton x) (by simp [hx])

/-- The collection fold yields a duplicate-free list. -/
theorem foldl_insertKey_nodup (xs : List Str) :
    ∀ acc, acc.Nodup → (xs.foldl insertKey acc).Nodup := by
  induction xs with
  | nil => intro acc h; exact h
  | cons x xs ih => intro acc h; exact ih _ (insertKey_nodup acc x h)

/-- The collection fold only ever appends. -/
theorem foldl_insertKey_shape (xs : List Str) :
    ∀ acc, ∃ r, xs.foldl insertKey acc = acc ++ r := by
  induction xs with
  | nil => intro acc; exact ⟨[], by simp⟩
  | cons x xs ih =>
    intro acc
    by_cases hx : x ∈ acc
    · obtain ⟨r, hr⟩ := ih acc
      exact ⟨r, by rw [List.foldl_cons, insertKey, if_pos hx, hr]⟩
    · obtain ⟨r, hr⟩ := ih (acc ++ [x])
      exact ⟨[x] ++ r, by rw [List.foldl_cons, insertKey, if_neg hx, hr, List.append_assoc]⟩

/-- A key already collected keeps its position through the fold. -/
theorem foldl_insertKey_firstIdx_mem (xs : List Str) (acc : List Str) (k : Str)
    (h : k ∈ acc) :
    firstIdx (xs.foldl insertKey acc) k = firstIdx acc k := by
  obtain ⟨r, hr⟩ := foldl_insertKey_shape xs acc
  rw [hr]
  exact firstIdx_append_left acc r k h

/-- Position bookkeeping of the first-seen collection fold: a key not yet
collected ends up at the position whose 1-based rank is the number of
distinct not-yet-collected keys up to and including its first
occurrence. -/
theorem foldl_insertKey_firstIdx_new (xs : List Str) :
    ∀ (acc : List Str) (k : Str), k ∈ xs → k ∉ acc →
      firstIdx (xs.foldl insertKey acc) k + 1
        = acc.length + ((xs.take (firstIdx xs k + 1)).toFinset \ acc.toFinset).card := by
  induction xs with
  | nil => intro acc k hk _; cases hk
  | cons x xs ih =>
    intro acc k hk hka
    by_cases hxk : x = k
    · subst hxk
      rw [List.foldl_cons, insertKey, if_neg hka]
      rw [foldl_insertKey_firstIdx_mem xs _ x (by simp)]
      rw [firstIdx_append_right acc [x] x hka, firstIdx_cons_self, firstIdx_cons_self]
      simp only [List.take_succ_cons, List.take_zero, List.toFinset_cons,
        List.toFinset_nil]
      have hxa : x ∉ acc.toFinset := fun hc => hka (List.mem_toFinset.mp hc)
      rw [Finset.insert_sdiff_of_not_mem _ hxa, Finset.empty_sdiff,
        Finset.card_insert_of_not_mem (Finset.not_mem_empty x), Finset.card_empty]
    · have hkxs : k ∈ xs := by
        rcases List.mem_cons.mp hk with h | h
        · exact absurd h.symm hxk
        · exact h
      rw [firstIdx_cons_ne x k xs hxk, List.take_succ_cons, List.toFinset_cons]
      by_cases hxa : x ∈ acc
      · rw [List.foldl_cons, insertKey, if_pos hxa]
        rw [Finset.insert_sdiff_of_mem _ (List.mem_toFinset.mpr hxa)]
        exact ih acc k hkxs hka
      · rw [List.foldl_cons, insertKey, if_neg hxa]
        have hka2 : k ∉ acc ++ [x] := by
          intro hc
          rcases List.mem_append.mp hc with h | h
          · exact hka h
          · have hkx : k = x := by simpa using h
            exact hxk hkx.symm
        have ih2 := ih (acc ++ [x]) k hkxs hka2
        rw [ih2]
        have hunion : (acc ++ [x]).toFinset = insert x acc.toFinset := by
          rw [List.toFinset_append]
          simp [Finset.union_comm, Finset.insert_eq]
        rw [hunion, Finset.sdiff_insert]
        have hxa2 : x ∉ acc.toFinset := fun hc => hxa (List.mem_toFinset.mp hc)
        rw [Finset.insert_sdiff_of_not_mem _ hxa2, card_insert_erase]
        simp only [List.length_append, List.length_singleton]
        omega

/-- C6: for every occurrence list, the first-seen numbering of
`process_content` (position in `collect_citekeys` plus one, which is the
`n` of the positional label `[n]` that `format_labels` gives the entry at
that position) assigns every cited key `k` the number of distinct citekeys
up to and including `k`'s first appearance — iterating occurrences in scan
order and each occurrence's citekeys in listed order.  In particular the
first citekey of the first occurrence gets number 1, the i-th distinct
citekey gets number i, and a repeated citekey has exactly one well-defined
number (the collected list holds it exactly once). -/
theorem collect_citekeys_numbering (cs : List Citation) (k : Str)
    (hk : k ∈ cs.flatMap Citation.citekeys) :
    (firstIdx (collect_citekeys cs) k + 1
        = (((cs.flatMap Citation.citekeys).take
            (firstIdx (cs.flatMap Citation.citekeys) k + 1)).toFinset).card)
      ∧ (collect_citekeys cs).Nodup
      ∧ (∀ c, cs.head? = some c → c.citekeys.head? = some k →
          firstIdx (collect_citekeys cs) k + 1 = 1)
      ∧ (∀ (es : List Entry) (i : Nat), i < es.length →
          (format_labels es)[i]? = some ('[' :: (Nat.repr (i + 1)).toList ++ [']'])) := by
  have hmain : firstIdx (collect_citekeys cs) k + 1
      = (((cs.flatMap Citation.citekeys).take
          (firstIdx (cs.flatMap Citation.citekeys) k + 1)).toFinset).card := by
    rw [collect_citekeys_eq]
    have h := foldl_insertKey_firstIdx_new (cs.flatMap Citation.citekeys) [] k hk
      (List.not_mem_nil k)
    simpa using h
  refine ⟨hmain, ?_, ?_, ?_⟩
  · rw [collect_citekeys_eq]
    exact foldl_insertKey_nodup _ [] List.nodup_nil
  · intro c hc hck
    cases cs with
    | nil => cases hc
    | cons c0 cs2 =>
      have hc0 : c0 = c := by simpa using hc
      subst hc0
      cases hcc : c0.citekeys with
      | nil => rw [hcc] at hck; cases hck
      | cons k0 ks2 =>
        rw [hcc] at hck
        have hk0 : k0 = k := by simpa using hck
        subst hk0
        rw [List.flatMap_cons, hcc, List.cons_append, firstIdx_cons_self,
          List.take_succ_cons, List.take_zero, List.toFinset_cons, List.toFinset_nil,
          Finset.card_insert_of_not_mem (Finset.not_mem_empty k0), Finset.card_empty]
          at hmain
        exact hmain
  · intro es i h
    simp [format_labels, List.getElem?_map, List.getElem?_range, h]

/-- C6 (witness): the scenario occurrence list citing `smith99` then
`smith99, doe01`; `doe01` is the second distinct key. -/
theorem collect_citekeys_numbering_witness :
    ("doe01".toList : Str)
        ∈ ([⟨2, 12, ["smith99".toList]⟩,
            ⟨20, 40, ["smith99".toList, "doe01".toList]⟩] : List Citation).flatMap
          Citation.citekeys
      ∧ ((firstIdx (collect_citekeys
            [⟨2, 12, ["smith99".toList]⟩,
              ⟨20, 40, ["smith99".toList, "doe01".toList]⟩]) ("doe01".toList) + 1
          = ((([⟨2, 12, ["smith99".toList]⟩,
              ⟨20, 40, ["smith99".toList, "doe01".toList]⟩] : List Citation).flatMap
                Citation.citekeys).take
              (firstIdx (([⟨2, 12, ["smith99".toList]⟩,
                ⟨20, 40, ["smith99".toList, "doe01".toList]⟩] : List Citation).flatMap
                  Citation.citekeys) ("doe01".toList) + 1)).toFinset.card)
        ∧ (collect_citekeys
            [⟨2, 12, ["smith99".toList]⟩,
              ⟨20, 40, ["smith99".toList, "doe01".toList]⟩]).Nodup
        ∧ (∀ c, ([⟨2, 12, ["smith99".toList]⟩,
              ⟨20, 40, ["smith99".toList, "doe01".toList]⟩] : List Citation).head? = some c
            → c.citekeys.head? = some ("doe01".toList)
            → firstIdx (collect_citekeys
                [⟨2, 12, ["smith99".toList]⟩,
                  ⟨20, 40, ["smith99".toList, "doe01".toList]⟩]) ("doe01".toList) + 1
              = 1)
        ∧ (∀ (es : List Entry) (i : Nat), i < es.length →
            (format_labels es)[i]? = some ('[' :: (Nat.repr (i + 1)).toList ++ [']']))) :=
  ⟨by decide,
    collect_citekeys_numbering
      [⟨2, 12, ["smith99".toList]⟩, ⟨20, 40, ["smith99".toList, "doe01".toList]⟩]
      ("doe01".toList) (by decide)⟩
